import Mathlib

/-!
Verification of the VirtSynth synthesizer core (src/synthesizer.rs,
src/oscilator.rs, src/waveform.rs, src/atomicf.rs).

The Rust code computes with `f32`; the embedding models that arithmetic
exactly over `ℚ`, so the theorems are about the real-number algorithm the
code implements.  The one transcendental, `(phase * TAU).sin()` in
`Oscilator::tick`, is abstracted as a function parameter `sinOf : ℚ → ℚ`
(standing for `fun phase => Real.sin (phase * 2 * π)`); theorems that need
it assume only `|sinOf x| ≤ 1`.
-/

namespace VirtSynth

/-- The `Waveform` enum from waveform.rs (discriminants 1..4). -/
inductive Waveform
  | Sin
  | Square
  | Saw
  | Triangle
deriving DecidableEq

/-- The discriminant of a `Waveform`, i.e. `v as i32` in Rust. -/
def Waveform.toCode : Waveform → Int
  | .Sin => 1
  | .Square => 2
  | .Saw => 3
  | .Triangle => 4

/-- Embedding of `impl From<i32> for Waveform` (waveform.rs lines 26-36): decodes 1..4,
panics otherwise.  The panic (`panic!("Invalid waveform integer")`) is
modelled as `none`. -/
def Waveform.fromCode (value : Int) : Option Waveform :=
  if value = 1 then some .Sin
  else if value = 2 then some .Square
  else if value = 3 then some .Saw
  else if value = 4 then some .Triangle
  else none

/-- The `AtomicWaveform` cell (atomicf.rs lines 44-64): stores the discriminant
in an atomic i32.  The atomicity itself is not modelled, only the
stored value. -/
structure AtomicWaveform where
  inner : Int

/-- Embedding of `AtomicWaveform::store`: `self.inner.store(val as i32, order)`. -/
def AtomicWaveform.store (val : Waveform) : AtomicWaveform :=
  ⟨val.toCode⟩

/-- Embedding of `AtomicWaveform::load`: `Waveform::from(self.inner.load(order))`. -/
def AtomicWaveform.load (c : AtomicWaveform) : Option Waveform :=
  Waveform.fromCode c.inner

/-- The `KeyState` enum from synthesizer.rs lines 65-71. -/
inductive KeyState
  | Pressed
  | Decay
  | Sustain
  | Released
deriving DecidableEq

/-- The `TrackElement` record from synthesizer.rs lines 73-79. -/
structure TrackElement where
  state : KeyState
  amplitude : ℚ
  position : ℚ
  t_amplitude : ℚ
deriving DecidableEq

/-- Embedding of `TrackElement::default` (synthesizer.rs lines 139-148). -/
def TrackElement.default : TrackElement :=
  { state := .Released, amplitude := 0, position := 0, t_amplitude := 0 }

/-- Embedding of `TrackElement::press` (synthesizer.rs lines 82-89). -/
def TrackElement.press (e : TrackElement) : TrackElement :=
  if e.state = .Released then
    { e with state := .Pressed, position := 0, t_amplitude := e.amplitude }
  else
    e

/-- Embedding of `TrackElement::release` (synthesizer.rs lines 91-98). -/
def TrackElement.release (e : TrackElement) : TrackElement :=
  if e.state ≠ .Released then
    { e with state := .Released, position := 0, t_amplitude := e.amplitude }
  else
    e

/-- The `ADSR` parameter snapshot (envelope.rs lines 22-32); only the four
plain fields the audio thread reads are modelled. -/
structure ADSR where
  attack : ℚ
  decay : ℚ
  sustain : ℚ
  release : ℚ

/-- Embedding of `TrackElement::tick` (synthesizer.rs lines 100-137), one envelope step
at the given sample rate and ADSR snapshot. -/
def TrackElement.tick (e : TrackElement) (sample_rate : ℚ) (adsr : ADSR) :
    TrackElement :=
  match e.state with
  | .Pressed =>
      let pos := e.position + 1
      if pos < sample_rate * adsr.attack then
        { e with position := pos,
                 amplitude :=
                   e.amplitude + (1 - e.t_amplitude) / (sample_rate * adsr.attack) }
      else
        { e with amplitude := 1, position := 0, state := .Decay }
  | .Decay =>
      let pos := e.position + 1
      if pos < sample_rate * adsr.decay then
        { e with position := pos,
                 amplitude :=
                   e.amplitude - (1 - adsr.sustain) / (sample_rate * adsr.decay) }
      else
        { e with position := pos, amplitude := adsr.sustain, state := .Sustain }
  | .Sustain =>
      { e with amplitude := adsr.sustain }
  | .Released =>
      let pos := e.position + 1
      if pos < sample_rate * adsr.release then
        { e with position := pos,
                 amplitude :=
                   e.amplitude - e.t_amplitude / (sample_rate * adsr.release) }
      else
        { e with position := pos, amplitude := 0 }

/-- Variant of `TrackElement::tick` with every division guarded: a branch that would
divide by a zero divisor yields `none` instead.  Used to express that the
source never divides by zero on the claimed paths; on `some` results it
agrees with `TrackElement.tick`. -/
def TrackElement.tickChecked (e : TrackElement) (sample_rate : ℚ)
    (adsr : ADSR) : Option TrackElement :=
  match e.state with
  | .Pressed =>
      let pos := e.position + 1
      if pos < sample_rate * adsr.attack then
        if sample_rate * adsr.attack = 0 then none
        else some { e with position := pos,
                           amplitude :=
                             e.amplitude + (1 - e.t_amplitude) / (sample_rate * adsr.attack) }
      else
        some { e with amplitude := 1, position := 0, state := .Decay }
  | .Decay =>
      let pos := e.position + 1
      if pos < sample_rate * adsr.decay then
        if sample_rate * adsr.decay = 0 then none
        else some { e with position := pos,
                           amplitude :=
                             e.amplitude - (1 - adsr.sustain) / (sample_rate * adsr.decay) }
      else
        some { e with position := pos, amplitude := adsr.sustain, state := .Sustain }
  | .Sustain =>
      some { e with amplitude := adsr.sustain }
  | .Released =>
      let pos := e.position + 1
      if pos < sample_rate * adsr.release then
        if sample_rate * adsr.release = 0 then none
        else some { e with position := pos,
                           amplitude :=
                             e.amplitude - e.t_amplitude / (sample_rate * adsr.release) }
      else
        some { e with position := pos, amplitude := 0 }

/-- One event seen by a single `TrackElement`: a press or release trigger
(from `KeyAmplitudeTracker::update`, synthesizer.rs lines 171-184) or one
envelope tick (from `KeyAmplitudeTracker::tick`). -/
inductive EnvEvent
  | press
  | release
  | tick

/-- Apply one event to a `TrackElement` at a fixed sample rate and ADSR
snapshot. -/
def applyEvent (sample_rate : ℚ) (adsr : ADSR) (e : TrackElement) :
    EnvEvent → TrackElement
  | .press => e.press
  | .release => e.release
  | .tick => e.tick sample_rate adsr

/-- Run a sequence of press/release/tick events from a starting element. -/
def runEvents (sample_rate : ℚ) (adsr : ADSR) (e : TrackElement)
    (evs : List EnvEvent) : TrackElement :=
  evs.foldl (applyEvent sample_rate adsr) e

/-- Inductive invariant of one envelope element under a fixed ADSR
snapshot: the amplitude and the transition snapshot stay in [0,1], the
position is a non-negative count, and in each ramping state the amplitude
is constrained by the affine ramp from its start point (stated with
denominators cleared, so each bound is multiplied through by the positive
stage length in samples). -/
def EnvInv (sr : ℚ) (adsr : ADSR) (e : TrackElement) : Prop :=
  0 ≤ e.amplitude ∧ e.amplitude ≤ 1 ∧
  0 ≤ e.t_amplitude ∧ e.t_amplitude ≤ 1 ∧
  0 ≤ e.position ∧
  (e.state = .Pressed → 0 < sr * adsr.attack →
    e.amplitude * (sr * adsr.attack) ≤
      e.t_amplitude * (sr * adsr.attack) + e.position * (1 - e.t_amplitude)) ∧
  (e.state = .Decay → 0 < sr * adsr.decay →
    sr * adsr.decay - e.position * (1 - adsr.sustain) ≤
      e.amplitude * (sr * adsr.decay)) ∧
  (e.state = .Released →
    e.amplitude ≤ e.t_amplitude ∧
    (0 < sr * adsr.release →
      e.t_amplitude * (sr * adsr.release - e.position) ≤
        e.amplitude * (sr * adsr.release)))

/-- The `Oscilator` snapshot (oscilator.rs lines 31-38): the per-buffer snapshot fields
the mixing loop reads. -/
structure Oscilator where
  waveform : Waveform
  active : Bool
  gain : ℚ

/-- The raw waveform value, the `match` inside `Oscilator::tick`
(oscilator.rs lines 65-75); `sinOf` stands for `fun p => (p * TAU).sin()`. -/
def rawWave (sinOf : ℚ → ℚ) (w : Waveform) (phase : ℚ) : ℚ :=
  match w with
  | .Sin => sinOf phase
  | .Square => if phase > 1/2 then -1 else 1
  | .Saw => 2 * phase - 1
  | .Triangle => 2 * |2 * phase - 1| - 1

/-- Embedding of `Oscilator::tick` (oscilator.rs lines 63-77): raw waveform value times
the oscillator's own gain. -/
def Oscilator.tick (sinOf : ℚ → ℚ) (o : Oscilator) (phase : ℚ) : ℚ :=
  rawWave sinOf o.waveform phase * o.gain

/-- The phase advance at the end of each active slot's iteration in
`Engine::on_buffer` (synthesizer.rs lines 279-282):
`*phase += freq / sample_rate; if *phase > 1.0 { *phase -= 1.0 }`. -/
def advancePhase (freq sample_rate phase : ℚ) : ℚ :=
  let p := phase + freq / sample_rate
  if p > 1 then p - 1 else p

/-- One oscillator's contribution inside the slot loop of
`Engine::on_buffer` (synthesizer.rs lines 264-277): if active it adds
`amplitude * gain` to `sum_amps` and `amplitude * tick(phase)` to
`sample_w`, else nothing. -/
def oscContrib (sinOf : ℚ → ℚ) (o : Oscilator) (amp phase : ℚ) : ℚ × ℚ :=
  if o.active then (amp * o.gain, amp * o.tick sinOf phase) else (0, 0)

/-- The three oscillators' combined contribution for one note slot. -/
def slotContrib (sinOf : ℚ → ℚ) (o1 o2 o3 : Oscilator) (amp phase : ℚ) :
    ℚ × ℚ :=
  let c1 := oscContrib sinOf o1 amp phase
  let c2 := oscContrib sinOf o2 amp phase
  let c3 := oscContrib sinOf o3 amp phase
  (c1.1 + c2.1 + c3.1, c1.2 + c2.2 + c3.2)

/-- The per-sample-frame slot loop of `Engine::on_buffer` (synthesizer.rs
lines 250-283).  Each slot is an (envelope element, key frequency, phase)
triple; a slot with `amplitude == 0.0` is skipped (`continue`) and keeps
its phase, otherwise its three-oscillator contribution is accumulated and
its phase advanced.  Returns `(sum_amps, sample_w, new phases)`. -/
def frameStep (sinOf : ℚ → ℚ) (o1 o2 o3 : Oscilator) (sample_rate : ℚ) :
    List (TrackElement × ℚ × ℚ) → ℚ × ℚ × List ℚ
  | [] => (0, 0, [])
  | (e, freq, phase) :: rest =>
      let r := frameStep sinOf o1 o2 o3 sample_rate rest
      if e.amplitude = 0 then
        (r.1, r.2.1, phase :: r.2.2)
      else
        let c := slotContrib sinOf o1 o2 o3 e.amplitude phase
        (c.1 + r.1, c.2 + r.2.1,
         advancePhase freq sample_rate phase :: r.2.2)

/-- The sample written for one frame by `Engine::on_buffer`
(synthesizer.rs lines 285-287):
`sample_w *= 1.0 / 1.0f32.max(sum_amps); the_sample = fgain * sample_w`. -/
def frameSample (sinOf : ℚ → ℚ) (o1 o2 o3 : Oscilator)
    (sample_rate fgain : ℚ) (slots : List (TrackElement × ℚ × ℚ)) : ℚ :=
  let r := frameStep sinOf o1 o2 o3 sample_rate slots
  fgain * (r.2.1 * (1 / max 1 r.1))

/-- Writing the identical sample into every channel of the frame
(synthesizer.rs lines 289-291). -/
def frameWrite (channels : ℕ) (theSample : ℚ) : List ℚ :=
  List.replicate channels theSample

/-- Step equation: `press` on a released element. -/
theorem press_released_eq (a p t : ℚ) :
    TrackElement.press ⟨.Released, a, p, t⟩ = ⟨.Pressed, a, 0, a⟩ := rfl

/-- Step equation: `press` on a pressed element is the identity. -/
theorem press_pressed_eq (a p t : ℚ) :
    TrackElement.press ⟨.Pressed, a, p, t⟩ = ⟨.Pressed, a, p, t⟩ := rfl

/-- Step equation: `press` on a decaying element is the identity. -/
theorem press_decay_eq (a p t : ℚ) :
    TrackElement.press ⟨.Decay, a, p, t⟩ = ⟨.Decay, a, p, t⟩ := rfl

/-- Step equation: `press` on a sustained element is the identity. -/
theorem press_sustain_eq (a p t : ℚ) :
    TrackElement.press ⟨.Sustain, a, p, t⟩ = ⟨.Sustain, a, p, t⟩ := rfl

/-- Step equation: `release` on a released element is the identity. -/
theorem release_released_eq (a p t : ℚ) :
    TrackElement.release ⟨.Released, a, p, t⟩ = ⟨.Released, a, p, t⟩ := rfl

/-- Step equation: `release` on a pressed element. -/
theorem release_pressed_eq (a p t : ℚ) :
    TrackElement.release ⟨.Pressed, a, p, t⟩ = ⟨.Released, a, 0, a⟩ := rfl

/-- Step equation: `release` on a decaying element. -/
theorem release_decay_eq (a p t : ℚ) :
    TrackElement.release ⟨.Decay, a, p, t⟩ = ⟨.Released, a, 0, a⟩ := rfl

/-- Step equation: `release` on a sustained element. -/
theorem release_sustain_eq (a p t : ℚ) :
    TrackElement.release ⟨.Sustain, a, p, t⟩ = ⟨.Released, a, 0, a⟩ := rfl

/-- Step equation: `tick` in the `Pressed` state. -/
theorem tick_pressed_eq (a p t sr : ℚ) (adsr : ADSR) :
    TrackElement.tick ⟨.Pressed, a, p, t⟩ sr adsr =
      if p + 1 < sr * adsr.attack then
        ⟨.Pressed, a + (1 - t) / (sr * adsr.attack), p + 1, t⟩
      else ⟨.Decay, 1, 0, t⟩ := rfl

/-- Step equation: `tick` in the `Decay` state. -/
theorem tick_decay_eq (a p t sr : ℚ) (adsr : ADSR) :
    TrackElement.tick ⟨.Decay, a, p, t⟩ sr adsr =
      if p + 1 < sr * adsr.decay then
        ⟨.Decay, a - (1 - adsr.sustain) / (sr * adsr.decay), p + 1, t⟩
      else ⟨.Sustain, adsr.sustain, p + 1, t⟩ := rfl

/-- Step equation: `tick` in the `Sustain` state. -/
theorem tick_sustain_eq (a p t sr : ℚ) (adsr : ADSR) :
    TrackElement.tick ⟨.Sustain, a, p, t⟩ sr adsr =
      ⟨.Sustain, adsr.sustain, p, t⟩ := rfl

/-- Step equation: `tick` in the `Released` state. -/
theorem tick_released_eq (a p t sr : ℚ) (adsr : ADSR) :
    TrackElement.tick ⟨.Released, a, p, t⟩ sr adsr =
      if p + 1 < sr * adsr.release then
        ⟨.Released, a - t / (sr * adsr.release), p + 1, t⟩
      else ⟨.Released, 0, p + 1, t⟩ := rfl

/-- Step equation: the division-guarded `tick` in the `Pressed` state. -/
theorem tickChecked_pressed_eq (a p t sr : ℚ) (adsr : ADSR) :
    TrackElement.tickChecked ⟨.Pressed, a, p, t⟩ sr adsr =
      if p + 1 < sr * adsr.attack then
        if sr * adsr.attack = 0 then none
        else some ⟨.Pressed, a + (1 - t) / (sr * adsr.attack), p + 1, t⟩
      else some ⟨.Decay, 1, 0, t⟩ := rfl

/-- C5: pressing an element that is already `Pressed`, `Decay` or `Sustain`
leaves it entirely unchanged, and releasing an element that is already
`Released` leaves it entirely unchanged. -/
theorem c5_trigger_noops (e : TrackElement) :
    (e.state = .Pressed ∨ e.state = .Decay ∨ e.state = .Sustain →
      e.press = e) ∧
    (e.state = .Released → e.release = e) := by
  constructor
  · rintro (h | h | h) <;> simp [TrackElement.press, h]
  · intro h
    simp [TrackElement.release, h]

/-- Witness for C5 at a concrete sustained element and at the default
released element. -/
theorem c5_trigger_noops_witness :
    ({ state := .Sustain, amplitude := 1/2, position := 3,
       t_amplitude := 1/4 } : TrackElement).press =
      { state := .Sustain, amplitude := 1/2, position := 3,
        t_amplitude := 1/4 } ∧
    TrackElement.default.release = TrackElement.default :=
  ⟨(c5_trigger_noops _).1 (Or.inr (Or.inr rfl)),
   (c5_trigger_noops _).2 rfl⟩

/-- C10: neither `press` nor `release` ever changes the `amplitude` field;
only `state`, `position` and `t_amplitude` may change. -/
theorem c10_triggers_preserve_amplitude (e : TrackElement) :
    (e.press).amplitude = e.amplitude ∧
    (e.release).amplitude = e.amplitude := by
  refine ⟨?_, ?_⟩ <;>
    · simp only [TrackElement.press, TrackElement.release]
      split <;> rfl

/-- C9: the waveform decode is total by panicking: codes 1,2,3,4 decode to
Sin, Square, Saw, Triangle, every other i32 panics (modelled `none`);
decoding a legally stored discriminant round-trips, so an
`AtomicWaveform` store followed by a load returns the stored kind. -/
theorem c9_waveform_codec :
    (∀ w : Waveform, Waveform.fromCode w.toCode = some w) ∧
    (∀ v : Int, v ≠ 1 → v ≠ 2 → v ≠ 3 → v ≠ 4 →
      Waveform.fromCode v = none) ∧
    (∀ w : Waveform, (AtomicWaveform.store w).load = some w) ∧
    Waveform.fromCode 1 = some .Sin ∧
    Waveform.fromCode 2 = some .Square ∧
    Waveform.fromCode 3 = some .Saw ∧
    Waveform.fromCode 4 = some .Triangle := by
  refine ⟨?_, ?_, ?_, rfl, rfl, rfl, rfl⟩
  · intro w
    cases w <;> rfl
  · intro v h1 h2 h3 h4
    simp [Waveform.fromCode, h1, h2, h3, h4]
  · intro w
    cases w <;> rfl

/-- Witness for C9: the invalid code 5 panics (none) and code of Square
round-trips. -/
theorem c9_waveform_codec_witness :
    Waveform.fromCode 5 = none ∧
    Waveform.fromCode (Waveform.toCode .Square) = some .Square :=
  ⟨c9_waveform_codec.2.1 5 (by decide) (by decide) (by decide) (by decide),
   c9_waveform_codec.1 .Square⟩

/-- C4 counterexample: at phase exactly 1/2 with gain 1 the square
oscillator outputs +1, not -1 as the claim states (the source tests
`phase > 0.5`, so 1/2 falls in the +1 branch). -/
theorem c4_square_half_counterexample :
    Oscilator.tick (fun _ => 0) ⟨.Square, true, 1⟩ (1/2) = 1 ∧
    (1 : ℚ) ≠ -1 := by
  constructor
  · norm_num [Oscilator.tick, rawWave]
  · norm_num

/-- C4 amended: the square oscillator at gain g outputs +g for every phase
in [0, 1/2] (the boundary 1/2 included) and -g for every phase in
(1/2, 1). -/
theorem c4_square_amended (sinOf : ℚ → ℚ) (g phase : ℚ) :
    (0 ≤ phase → phase ≤ 1/2 →
      Oscilator.tick sinOf ⟨.Square, true, g⟩ phase = g) ∧
    (1/2 < phase → phase < 1 →
      Oscilator.tick sinOf ⟨.Square, true, g⟩ phase = -g) := by
  constructor
  · intro _ h
    have hn : ¬(phase > 1/2) := not_lt.mpr h
    show (if phase > 1/2 then (-1 : ℚ) else 1) * g = g
    rw [if_neg hn, one_mul]
  · intro h _
    show (if phase > 1/2 then (-1 : ℚ) else 1) * g = -g
    rw [if_pos h, neg_one_mul]

/-- Witness for C4's amended theorem at phases 1/2 and 3/4 with gain 2. -/
theorem c4_square_amended_witness :
    Oscilator.tick (fun _ => 0) ⟨.Square, true, 2⟩ (1/2) = 2 ∧
    Oscilator.tick (fun _ => 0) ⟨.Square, true, 2⟩ (3/4) = -2 :=
  ⟨(c4_square_amended (fun _ => 0) 2 (1/2)).1 (by norm_num) (by norm_num),
   (c4_square_amended (fun _ => 0) 2 (3/4)).2 (by norm_num) (by norm_num)⟩

/-- C6: with a non-positive attack duration (and non-negative sample
rate), the first tick after a press from `Released` snaps the amplitude to
exactly 1 and moves to `Decay`; the division-guarded tick agrees and
returns `some`, so the division by the non-positive `sample_rate * attack`
is never evaluated. -/
theorem c6_zero_attack_snap (e : TrackElement) (sr : ℚ) (adsr : ADSR)
    (hs : e.state = .Released) (hr : 0 ≤ sr) (ha : adsr.attack ≤ 0) :
    e.press.tickChecked sr adsr =
      some { state := .Decay, amplitude := 1, position := 0,
             t_amplitude := e.amplitude } ∧
    (e.press.tick sr adsr).amplitude = 1 ∧
    (e.press.tick sr adsr).state = .Decay := by
  obtain ⟨st, a, p, t⟩ := e
  subst hs
  have hA : sr * adsr.attack ≤ 0 := by nlinarith
  have h1 : ¬((0 : ℚ) + 1 < sr * adsr.attack) := by
    intro h
    linarith
  rw [press_released_eq]
  refine ⟨?_, ?_, ?_⟩
  · rw [tickChecked_pressed_eq, if_neg h1]
  · rw [tick_pressed_eq, if_neg h1]
  · rw [tick_pressed_eq, if_neg h1]

/-- One phase advance stays in [0,1] when the increment `freq/sr` lies in
[0,1]. -/
theorem advancePhase_bounds (freq sr phase : ℚ) (hsr : 0 < sr)
    (hf0 : 0 ≤ freq) (hf1 : freq ≤ sr) (h0 : 0 ≤ phase) (h1 : phase ≤ 1) :
    0 ≤ advancePhase freq sr phase ∧ advancePhase freq sr phase ≤ 1 := by
  have hq0 : 0 ≤ freq / sr := div_nonneg hf0 hsr.le
  have hq1 : freq / sr ≤ 1 := (div_le_one hsr).mpr hf1
  have hunfold : advancePhase freq sr phase =
      if phase + freq / sr > 1 then phase + freq / sr - 1
      else phase + freq / sr := rfl
  rw [hunfold]
  split
  · next h => constructor <;> linarith
  · next h =>
      push_neg at h
      constructor <;> linarith

/-- C7: if the phase starts in [0,1] and every per-sample increment uses a
frequency between 0 and the sample rate, then after every advance of
`Engine::on_buffer` (add `freq/sample_rate`, subtract 1 if the result
exceeds 1) the phase is still in [0,1], across any sequence of advances. -/
theorem c7_phase_stays_in_cycle (sr : ℚ) (hsr : 0 < sr) (freqs : List ℚ)
    (hfreqs : ∀ f ∈ freqs, 0 ≤ f ∧ f ≤ sr) (phase : ℚ) (h0 : 0 ≤ phase)
    (h1 : phase ≤ 1) :
    0 ≤ freqs.foldl (fun p f => advancePhase f sr p) phase ∧
    freqs.foldl (fun p f => advancePhase f sr p) phase ≤ 1 := by
  induction freqs generalizing phase with
  | nil => exact ⟨h0, h1⟩
  | cons f fs ih =>
      have hf := hfreqs f (List.mem_cons_self f fs)
      have hstep := advancePhase_bounds f sr phase hsr hf.1 hf.2 h0 h1
      exact ih (fun g hg => hfreqs g (List.mem_cons_of_mem f hg))
        (advancePhase f sr phase) hstep.1 hstep.2

/-- Witness for C7: one buffer of two advances at 48000 Hz starting from
phase 1/4. -/
theorem c7_phase_stays_in_cycle_witness :
    0 ≤ [440, 47999].foldl (fun p f => advancePhase f 48000 p) (1/4) ∧
    [440, 47999].foldl (fun p f => advancePhase f 48000 p) (1/4) ≤ 1 :=
  c7_phase_stays_in_cycle 48000 (by norm_num) [440, 47999]
    (by
      intro f hf
      fin_cases hf <;> norm_num)
    (1/4) (by norm_num) (by norm_num)

/-- C8: within one sample frame of `Engine::on_buffer`, a slot whose
envelope amplitude is exactly 0 keeps its phase unchanged, and every slot
with nonzero amplitude gets its phase advanced by exactly one
`advancePhase` step. -/
theorem c8_silent_slots_keep_phase (sinOf : ℚ → ℚ) (o1 o2 o3 : Oscilator)
    (sr : ℚ) (slots : List (TrackElement × ℚ × ℚ)) :
    (frameStep sinOf o1 o2 o3 sr slots).2.2 =
      slots.map (fun s =>
        if s.1.amplitude = 0 then s.2.2 else advancePhase s.2.1 sr s.2.2) := by
  induction slots with
  | nil => rfl
  | cons hd tl ih =>
      obtain ⟨e, freq, phase⟩ := hd
      by_cases h : e.amplitude = 0
      · simp [frameStep, h, ih]
      · simp [frameStep, h, ih]

/-- C2 counterexample: press the default element, then tick three times at
48000 Hz with per-buffer attack values 1/24000, 1/16000, 1/12000 seconds
(all non-negative, sustain 1, decay/release 0): the amplitude becomes
1/2 + 1/3 + 1/4 = 13/12 > 1. -/
theorem c2_amplitude_escapes_counterexample :
    (((TrackElement.default.press.tick 48000 ⟨1/24000, 0, 1, 0⟩).tick 48000
        ⟨1/16000, 0, 1, 0⟩).tick 48000 ⟨1/12000, 0, 1, 0⟩).amplitude =
      13/12 ∧
    ¬((((TrackElement.default.press.tick 48000 ⟨1/24000, 0, 1, 0⟩).tick
        48000 ⟨1/16000, 0, 1, 0⟩).tick 48000
        ⟨1/12000, 0, 1, 0⟩).amplitude ≤ 1) := by
  have h1 : TrackElement.default.press = ⟨.Pressed, 0, 0, 0⟩ := rfl
  have h2 : TrackElement.tick ⟨.Pressed, 0, 0, 0⟩ 48000 ⟨1/24000, 0, 1, 0⟩ =
      ⟨.Pressed, 1/2, 1, 0⟩ := by
    rw [tick_pressed_eq]
    norm_num
  have h3 : TrackElement.tick ⟨.Pressed, 1/2, 1, 0⟩ 48000 ⟨1/16000, 0, 1, 0⟩ =
      ⟨.Pressed, 5/6, 2, 0⟩ := by
    rw [tick_pressed_eq]
    norm_num
  have h4 : TrackElement.tick ⟨.Pressed, 5/6, 2, 0⟩ 48000 ⟨1/12000, 0, 1, 0⟩ =
      ⟨.Pressed, 13/12, 3, 0⟩ := by
    rw [tick_pressed_eq]
    norm_num
  rw [h1, h2, h3, h4]
  norm_num

/-- The full released trajectory for C3: from `⟨Released, 1, 0, 1⟩` with
release = 1/5 s at 48000 Hz (9600 samples), after n ticks the amplitude is
`1 - n/9600` while `n < 9600` and exactly 0 afterwards. -/
theorem c3_release_trajectory (a d s : ℚ) (n : ℕ) :
    (fun x => TrackElement.tick x 48000 ⟨a, d, s, 1/5⟩)^[n]
        ⟨.Released, 1, 0, 1⟩ =
      ⟨.Released, if (n : ℚ) < 9600 then 1 - n / 9600 else 0, (n : ℚ), 1⟩ := by
  induction n with
  | zero => norm_num
  | succ n ih =>
      rw [Function.iterate_succ_apply', ih, tick_released_eq]
      have hrel : (48000 : ℚ) * (ADSR.mk a d s (1/5)).release = 9600 := by
        norm_num
      rw [hrel]
      push_cast
      by_cases h : (n : ℚ) + 1 < 9600
      · rw [if_pos (show (n : ℚ) < 9600 by linarith), if_pos h, if_pos h]
        simp only [TrackElement.mk.injEq, true_and, and_true]
        ring
      · rw [if_neg h, if_neg h]

/-- C3: an element with amplitude 1 in any non-Released state, released at
sample 0 and ticked with release = 0.2 s at 48000 Hz, has amplitude
exactly 0 at the 9600th tick and at every tick thereafter. -/
theorem c3_release_reaches_zero (e : TrackElement)
    (hs : e.state ≠ .Released) (ha : e.amplitude = 1) (a d s : ℚ) (n : ℕ)
    (hn : 9600 ≤ n) :
    ((fun x => TrackElement.tick x 48000 ⟨a, d, s, 1/5⟩)^[n]
      e.release).amplitude = 0 := by
  have hrel : e.release = ⟨.Released, 1, 0, 1⟩ := by
    obtain ⟨st, A, P, T⟩ := e
    subst ha
    cases st
    · exact release_pressed_eq 1 P T
    · exact release_decay_eq 1 P T
    · exact release_sustain_eq 1 P T
    · exact absurd rfl hs
  rw [hrel, c3_release_trajectory]
  have hge : ¬((n : ℚ) < 9600) := by
    push_neg
    exact_mod_cast hn
  rw [if_neg hge]

/-- Witness for C3: a sustained element at amplitude 1, released and
ticked exactly 9600 times. -/
theorem c3_release_reaches_zero_witness :
    ((fun x => TrackElement.tick x 48000 ⟨0, 0, 1, 1/5⟩)^[9600]
      (⟨.Sustain, 1, 0, 1⟩ : TrackElement).release).amplitude = 0 :=
  c3_release_reaches_zero ⟨.Sustain, 1, 0, 1⟩ (by decide) rfl 0 0 1 9600
    (le_refl 9600)

/-- Witness for C6 from the default element at sample rate 48000 and
attack 0. -/
theorem c6_zero_attack_snap_witness :
    TrackElement.default.press.tickChecked 48000 ⟨0, 1, 1, 1⟩ =
      some { state := .Decay, amplitude := 1, position := 0,
             t_amplitude := 0 } ∧
    (TrackElement.default.press.tick 48000 ⟨0, 1, 1, 1⟩).amplitude = 1 ∧
    (TrackElement.default.press.tick 48000 ⟨0, 1, 1, 1⟩).state = .Decay :=
  c6_zero_attack_snap TrackElement.default 48000 ⟨0, 1, 1, 1⟩ rfl
    (by norm_num) (by norm_num)

/-- Unfolding of `EnvInv` at an explicit record, with the projections
reduced. -/
theorem envInv_mk_iff (sr : ℚ) (adsr : ADSR) (st : KeyState)
    (a p t : ℚ) :
    EnvInv sr adsr ⟨st, a, p, t⟩ ↔
      (0 ≤ a ∧ a ≤ 1 ∧ 0 ≤ t ∧ t ≤ 1 ∧ 0 ≤ p ∧
       (st = .Pressed → 0 < sr * adsr.attack →
         a * (sr * adsr.attack) ≤
           t * (sr * adsr.attack) + p * (1 - t)) ∧
       (st = .Decay → 0 < sr * adsr.decay →
         sr * adsr.decay - p * (1 - adsr.sustain) ≤
           a * (sr * adsr.decay)) ∧
       (st = .Released →
         a ≤ t ∧
         (0 < sr * adsr.release →
           t * (sr * adsr.release - p) ≤ a * (sr * adsr.release)))) :=
  Iff.rfl

/-- The default element satisfies the envelope invariant. -/
theorem envInv_default (sr : ℚ) (adsr : ADSR) :
    EnvInv sr adsr TrackElement.default := by
  rw [show TrackElement.default = ⟨.Released, 0, 0, 0⟩ from rfl,
    envInv_mk_iff]
  refine ⟨le_refl 0, zero_le_one, le_refl 0, zero_le_one, le_refl 0,
    ?_, ?_, ?_⟩
  · intro habs
    exact absurd habs (by decide)
  · intro habs
    exact absurd habs (by decide)
  · exact fun _ => ⟨le_refl 0, fun _ => by simp⟩

/-- Pressing preserves the envelope invariant. -/
theorem envInv_press {sr : ℚ} {adsr : ADSR} {e : TrackElement}
    (h : EnvInv sr adsr e) : EnvInv sr adsr e.press := by
  obtain ⟨st, a, p, t⟩ := e
  rw [envInv_mk_iff] at h
  obtain ⟨h1, h2, h3, h4, h5, hP, hD, hR⟩ := h
  cases st
  case Pressed =>
    rw [press_pressed_eq, envInv_mk_iff]
    exact ⟨h1, h2, h3, h4, h5, hP, hD, hR⟩
  case Decay =>
    rw [press_decay_eq, envInv_mk_iff]
    exact ⟨h1, h2, h3, h4, h5, hP, hD, hR⟩
  case Sustain =>
    rw [press_sustain_eq, envInv_mk_iff]
    exact ⟨h1, h2, h3, h4, h5, hP, hD, hR⟩
  case Released =>
    rw [press_released_eq, envInv_mk_iff]
    refine ⟨h1, h2, h1, h2, le_refl 0, ?_, ?_, ?_⟩
    · intro _ _
      simp
    · intro habs
      exact absurd habs (by decide)
    · intro habs
      exact absurd habs (by decide)

/-- Releasing preserves the envelope invariant. -/
theorem envInv_release {sr : ℚ} {adsr : ADSR} {e : TrackElement}
    (h : EnvInv sr adsr e) : EnvInv sr adsr e.release := by
  obtain ⟨st, a, p, t⟩ := e
  rw [envInv_mk_iff] at h
  obtain ⟨h1, h2, h3, h4, h5, hP, hD, hR⟩ := h
  cases st
  case Released =>
    rw [release_released_eq, envInv_mk_iff]
    exact ⟨h1, h2, h3, h4, h5, hP, hD, hR⟩
  case Pressed =>
    rw [release_pressed_eq, envInv_mk_iff]
    refine ⟨h1, h2, h1, h2, le_refl 0, ?_, ?_, ?_⟩
    · intro habs
      exact absurd habs (by decide)
    · intro habs
      exact absurd habs (by decide)
    · intro _
      refine ⟨le_refl a, fun _ => ?_⟩
      simp
  case Decay =>
    rw [release_decay_eq, envInv_mk_iff]
    refine ⟨h1, h2, h1, h2, le_refl 0, ?_, ?_, ?_⟩
    · intro habs
      exact absurd habs (by decide)
    · intro habs
      exact absurd habs (by decide)
    · intro _
      refine ⟨le_refl a, fun _ => ?_⟩
      simp
  case Sustain =>
    rw [release_sustain_eq, envInv_mk_iff]
    refine ⟨h1, h2, h1, h2, le_refl 0, ?_, ?_, ?_⟩
    · intro habs
      exact absurd habs (by decide)
    · intro habs
      exact absurd habs (by decide)
    · intro _
      refine ⟨le_refl a, fun _ => ?_⟩
      simp

/-- Ticking preserves the envelope invariant, for any fixed ADSR snapshot
whose sustain level is in [0,1]. -/
theorem envInv_tick {sr : ℚ} {adsr : ADSR} {e : TrackElement}
    (hs0 : 0 ≤ adsr.sustain) (hs1 : adsr.sustain ≤ 1)
    (h : EnvInv sr adsr e) : EnvInv sr adsr (e.tick sr adsr) := by
  obtain ⟨st, a, p, t⟩ := e
  rw [envInv_mk_iff] at h
  obtain ⟨h1, h2, h3, h4, h5, hP, hD, hR⟩ := h
  cases st
  case Pressed =>
    rw [tick_pressed_eq]
    by_cases hc : p + 1 < sr * adsr.attack
    · rw [if_pos hc, envInv_mk_iff]
      have hApos : (0 : ℚ) < sr * adsr.attack := by linarith
      have hb := hP rfl hApos
      have hq0 : 0 ≤ (1 - t) / (sr * adsr.attack) :=
        div_nonneg (by linarith) hApos.le
      have hcancel : (1 - t) / (sr * adsr.attack) * (sr * adsr.attack)
          = 1 - t := div_mul_cancel₀ _ (ne_of_gt hApos)
      refine ⟨by linarith, ?_, h3, h4, by linarith, ?_, ?_, ?_⟩
      · nlinarith [mul_nonneg
          (show (0 : ℚ) ≤ sr * adsr.attack - 1 - p by linarith)
          (show (0 : ℚ) ≤ 1 - t by linarith)]
      · intro _ _
        nlinarith
      · intro habs
        exact absurd habs (by decide)
      · intro habs
        exact absurd habs (by decide)
    · rw [if_neg hc, envInv_mk_iff]
      refine ⟨zero_le_one, le_refl 1, h3, h4, le_refl 0, ?_, ?_, ?_⟩
      · intro habs
        exact absurd habs (by decide)
      · intro _ _
        simp
      · intro habs
        exact absurd habs (by decide)
  case Decay =>
    rw [tick_decay_eq]
    by_cases hc : p + 1 < sr * adsr.decay
    · rw [if_pos hc, envInv_mk_iff]
      have hDpos : (0 : ℚ) < sr * adsr.decay := by linarith
      have hb := hD rfl hDpos
      have hq0 : 0 ≤ (1 - adsr.sustain) / (sr * adsr.decay) :=
        div_nonneg (by linarith) hDpos.le
      have hcancel : (1 - adsr.sustain) / (sr * adsr.decay) *
          (sr * adsr.decay) = 1 - adsr.sustain :=
        div_mul_cancel₀ _ (ne_of_gt hDpos)
      refine ⟨?_, by linarith, h3, h4, by linarith, ?_, ?_, ?_⟩
      · nlinarith [mul_nonneg
          (show (0 : ℚ) ≤ sr * adsr.decay - 1 - p by linarith)
          (show (0 : ℚ) ≤ 1 - adsr.sustain by linarith),
          mul_nonneg hDpos.le hs0]
      · intro habs
        exact absurd habs (by decide)
      · intro _ _
        nlinarith
      · intro habs
        exact absurd habs (by decide)
    · rw [if_neg hc, envInv_mk_iff]
      refine ⟨hs0, hs1, h3, h4, by linarith, ?_, ?_, ?_⟩ <;>
        · intro habs
          exact absurd habs (by decide)
  case Sustain =>
    rw [tick_sustain_eq, envInv_mk_iff]
    refine ⟨hs0, hs1, h3, h4, h5, ?_, ?_, ?_⟩ <;>
      · intro habs
        exact absurd habs (by decide)
  case Released =>
    rw [tick_released_eq]
    obtain ⟨hRa, hRb⟩ := hR rfl
    by_cases hc : p + 1 < sr * adsr.release
    · rw [if_pos hc, envInv_mk_iff]
      have hRpos : (0 : ℚ) < sr * adsr.release := by linarith
      have hb := hRb hRpos
      have hq0 : 0 ≤ t / (sr * adsr.release) := div_nonneg h3 hRpos.le
      have hcancel : t / (sr * adsr.release) * (sr * adsr.release) = t :=
        div_mul_cancel₀ _ (ne_of_gt hRpos)
      refine ⟨?_, by linarith, h3, h4, by linarith, ?_, ?_, ?_⟩
      · nlinarith [mul_nonneg h3
          (show (0 : ℚ) ≤ sr * adsr.release - p - 1 by linarith)]
      · intro habs
        exact absurd habs (by decide)
      · intro habs
        exact absurd habs (by decide)
      · intro _
        refine ⟨by linarith, fun _ => ?_⟩
        nlinarith
    · rw [if_neg hc, envInv_mk_iff]
      push_neg at hc
      refine ⟨le_refl 0, zero_le_one, h3, h4, by linarith, ?_, ?_, ?_⟩
      · intro habs
        exact absurd habs (by decide)
      · intro habs
        exact absurd habs (by decide)
      · intro _
        refine ⟨h3, fun _ => ?_⟩
        nlinarith [mul_nonneg h3
          (show (0 : ℚ) ≤ p + 1 - sr * adsr.release by linarith)]

/-- Running any event sequence from an invariant state keeps the
invariant, for a fixed ADSR snapshot with sustain in [0,1]. -/
theorem envInv_runEvents {sr : ℚ} {adsr : ADSR} (hs0 : 0 ≤ adsr.sustain)
    (hs1 : adsr.sustain ≤ 1) (evs : List EnvEvent) (e : TrackElement)
    (h : EnvInv sr adsr e) : EnvInv sr adsr (runEvents sr adsr e evs) := by
  induction evs generalizing e with
  | nil => exact h
  | cons ev evs ih =>
      have hstep : EnvInv sr adsr (applyEvent sr adsr e ev) := by
        cases ev
        · exact envInv_press h
        · exact envInv_release h
        · exact envInv_tick hs0 hs1 h
      exact ih _ hstep

/-- C2 amended: with the ADSR snapshot held fixed over the whole event
sequence (the claim fails when the per-buffer parameters vary, see the
counterexample), every reachable sequence of press/release/tick events
from the initial Released state with amplitude 0 keeps the amplitude in
[0,1], for non-negative durations and sustain in [0,1]. -/
theorem c2_amplitude_in_unit_interval (sr : ℚ) (adsr : ADSR)
    (_ha : 0 ≤ adsr.attack) (_hd : 0 ≤ adsr.decay) (_hr : 0 ≤ adsr.release)
    (hs0 : 0 ≤ adsr.sustain) (hs1 : adsr.sustain ≤ 1)
    (evs : List EnvEvent) :
    0 ≤ (runEvents sr adsr TrackElement.default evs).amplitude ∧
    (runEvents sr adsr TrackElement.default evs).amplitude ≤ 1 := by
  have hinv := envInv_runEvents hs0 hs1 evs TrackElement.default
    (envInv_default sr adsr)
  exact ⟨hinv.1, hinv.2.1⟩

/-- Witness for C2's amended theorem: press then three ticks at 48000 Hz
with attack 0.1 s. -/
theorem c2_amplitude_in_unit_interval_witness :
    0 ≤ (runEvents 48000 ⟨1/10, 0, 1, 1/10⟩ TrackElement.default
        [.press, .tick, .tick, .tick]).amplitude ∧
    (runEvents 48000 ⟨1/10, 0, 1, 1/10⟩ TrackElement.default
        [.press, .tick, .tick, .tick]).amplitude ≤ 1 :=
  c2_amplitude_in_unit_interval 48000 ⟨1/10, 0, 1, 1/10⟩ (by norm_num)
    (le_refl 0) (by norm_num) (by norm_num) (le_refl 1)
    [.press, .tick, .tick, .tick]

/-- For phases in [0,1] (and a bounded sine abstraction) every raw
waveform value lies in [-1,1]. -/
theorem rawWave_abs_le_one (sinOf : ℚ → ℚ) (hsin : ∀ x, |sinOf x| ≤ 1)
    (w : Waveform) (phase : ℚ) (h0 : 0 ≤ phase) (h1 : phase ≤ 1) :
    |rawWave sinOf w phase| ≤ 1 := by
  cases w
  case Sin => exact hsin phase
  case Square =>
    show |if phase > 1/2 then (-1 : ℚ) else 1| ≤ 1
    split <;> norm_num
  case Saw =>
    show |2 * phase - 1| ≤ 1
    rw [abs_le]
    constructor <;> linarith
  case Triangle =>
    show |2 * |2 * phase - 1| - 1| ≤ 1
    have h2 : |2 * phase - 1| ≤ 1 := by
      rw [abs_le]
      constructor <;> linarith
    have h3 : 0 ≤ |2 * phase - 1| := abs_nonneg _
    rw [abs_le]
    constructor <;> linarith

/-- One oscillator's contribution: the weighted signal is bounded in
magnitude by the amplitude-times-gain term added to `sum_amps`. -/
theorem oscContrib_bound (sinOf : ℚ → ℚ) (o : Oscilator) (amp phase : ℚ)
    (hg : 0 ≤ o.gain) (hamp : 0 ≤ amp)
    (hraw : |rawWave sinOf o.waveform phase| ≤ 1) :
    0 ≤ (oscContrib sinOf o amp phase).1 ∧
    |(oscContrib sinOf o amp phase).2| ≤ (oscContrib sinOf o amp phase).1 := by
  unfold oscContrib
  split
  · constructor
    · exact mul_nonneg hamp hg
    · show |amp * Oscilator.tick sinOf o phase| ≤ amp * o.gain
      rw [Oscilator.tick, abs_mul, abs_mul, abs_of_nonneg hamp,
        abs_of_nonneg hg]
      nlinarith [mul_le_mul_of_nonneg_left
        (mul_le_mul_of_nonneg_right hraw hg) hamp]
  · simp

/-- One slot's three-oscillator contribution: the weighted signal is
bounded in magnitude by the slot's total `sum_amps` contribution. -/
theorem slotContrib_bound (sinOf : ℚ → ℚ) (o1 o2 o3 : Oscilator)
    (amp phase : ℚ) (hsin : ∀ x, |sinOf x| ≤ 1) (hg1 : 0 ≤ o1.gain)
    (hg2 : 0 ≤ o2.gain) (hg3 : 0 ≤ o3.gain) (hamp : 0 ≤ amp)
    (h0 : 0 ≤ phase) (h1 : phase ≤ 1) :
    0 ≤ (slotContrib sinOf o1 o2 o3 amp phase).1 ∧
    |(slotContrib sinOf o1 o2 o3 amp phase).2| ≤
      (slotContrib sinOf o1 o2 o3 amp phase).1 := by
  have b1 := oscContrib_bound sinOf o1 amp phase hg1 hamp
    (rawWave_abs_le_one sinOf hsin o1.waveform phase h0 h1)
  have b2 := oscContrib_bound sinOf o2 amp phase hg2 hamp
    (rawWave_abs_le_one sinOf hsin o2.waveform phase h0 h1)
  have b3 := oscContrib_bound sinOf o3 amp phase hg3 hamp
    (rawWave_abs_le_one sinOf hsin o3.waveform phase h0 h1)
  constructor
  · show 0 ≤ (oscContrib sinOf o1 amp phase).1 +
      (oscContrib sinOf o2 amp phase).1 + (oscContrib sinOf o3 amp phase).1
    linarith [b1.1, b2.1, b3.1]
  · show |(oscContrib sinOf o1 amp phase).2 +
      (oscContrib sinOf o2 amp phase).2 + (oscContrib sinOf o3 amp phase).2|
      ≤ (oscContrib sinOf o1 amp phase).1 +
        (oscContrib sinOf o2 amp phase).1 + (oscContrib sinOf o3 amp phase).1
    have habs := abs_add_three (oscContrib sinOf o1 amp phase).2
      (oscContrib sinOf o2 amp phase).2 (oscContrib sinOf o3 amp phase).2
    linarith [b1.2, b2.2, b3.2]

/-- Per frame, the accumulated weighted signal `sample_w` is bounded in
magnitude by the accumulated `sum_amps`, which is non-negative. -/
theorem frameStep_bound (sinOf : ℚ → ℚ) (o1 o2 o3 : Oscilator) (sr : ℚ)
    (hsin : ∀ x, |sinOf x| ≤ 1) (hg1 : 0 ≤ o1.gain) (hg2 : 0 ≤ o2.gain)
    (hg3 : 0 ≤ o3.gain) (slots : List (TrackElement × ℚ × ℚ))
    (hslots : ∀ s ∈ slots, 0 ≤ s.1.amplitude ∧ 0 ≤ s.2.2 ∧ s.2.2 ≤ 1) :
    0 ≤ (frameStep sinOf o1 o2 o3 sr slots).1 ∧
    |(frameStep sinOf o1 o2 o3 sr slots).2.1| ≤
      (frameStep sinOf o1 o2 o3 sr slots).1 := by
  induction slots with
  | nil => simp [frameStep]
  | cons hd tl ih =>
      obtain ⟨e, freq, phase⟩ := hd
      have hh := hslots (e, freq, phase) (List.mem_cons_self _ _)
      have ihtl := ih (fun s hs => hslots s (List.mem_cons_of_mem _ hs))
      by_cases hz : e.amplitude = 0
      · simpa [frameStep, hz] using ihtl
      · have hsc := slotContrib_bound sinOf o1 o2 o3 e.amplitude phase hsin
          hg1 hg2 hg3 hh.1 hh.2.1 hh.2.2
        have habs := abs_add (slotContrib sinOf o1 o2 o3 e.amplitude phase).2
          (frameStep sinOf o1 o2 o3 sr tl).2.1
        constructor
        · show 0 ≤ ((frameStep sinOf o1 o2 o3 sr ((e, freq, phase) :: tl)).1)
          simp only [frameStep, if_neg hz]
          linarith [hsc.1, ihtl.1]
        · show |(frameStep sinOf o1 o2 o3 sr ((e, freq, phase) :: tl)).2.1|
            ≤ (frameStep sinOf o1 o2 o3 sr ((e, freq, phase) :: tl)).1
          simp only [frameStep, if_neg hz]
          linarith [hsc.2, ihtl.2]

/-- A run of slots whose envelope amplitudes are all exactly 0 contributes
nothing: both accumulators stay 0 and all phases are kept. -/
theorem frameStep_all_zero (sinOf : ℚ → ℚ) (o1 o2 o3 : Oscilator)
    (sr : ℚ) (l : List (TrackElement × ℚ × ℚ))
    (hl : ∀ s ∈ l, s.1.amplitude = 0) :
    frameStep sinOf o1 o2 o3 sr l = (0, 0, l.map (fun s => s.2.2)) := by
  induction l with
  | nil => rfl
  | cons hd tl ih =>
      obtain ⟨e, freq, phase⟩ := hd
      have hz : e.amplitude = 0 := hl (e, freq, phase) (List.mem_cons_self _ _)
      have ihtl := ih (fun s hs => hl s (List.mem_cons_of_mem _ hs))
      simp [frameStep, hz, ihtl]

/-- A leading slot with zero envelope amplitude does not change the frame
sample. -/
theorem frameSample_cons_zero (sinOf : ℚ → ℚ) (o1 o2 o3 : Oscilator)
    (sr fgain : ℚ) (e : TrackElement) (freq phase : ℚ)
    (rest : List (TrackElement × ℚ × ℚ)) (hz : e.amplitude = 0) :
    frameSample sinOf o1 o2 o3 sr fgain ((e, freq, phase) :: rest) =
      frameSample sinOf o1 o2 o3 sr fgain rest := by
  have h1 : frameStep sinOf o1 o2 o3 sr ((e, freq, phase) :: rest) =
      ((frameStep sinOf o1 o2 o3 sr rest).1,
       (frameStep sinOf o1 o2 o3 sr rest).2.1,
       phase :: (frameStep sinOf o1 o2 o3 sr rest).2.2) := by
    simp [frameStep, hz]
  show fgain * ((frameStep sinOf o1 o2 o3 sr ((e, freq, phase) :: rest)).2.1 *
      (1 / max 1 (frameStep sinOf o1 o2 o3 sr ((e, freq, phase) :: rest)).1)) =
    fgain * ((frameStep sinOf o1 o2 o3 sr rest).2.1 *
      (1 / max 1 (frameStep sinOf o1 o2 o3 sr rest).1))
  rw [h1]

/-- C1: the frame's summed weighted signal is scaled by
`1 / max 1 sum_amps` and then by the master gain.  Consequently (first
conjunct) whenever the summed amplitude contribution exceeds 1, every
sample written for that frame has magnitude at most the master gain,
assuming non-negative gains/amplitudes, phases in [0,1] and a bounded
sine; and (second conjunct) for a single note at envelope amplitude 1
with only oscillator 1 active at gain 1, the frame sample is exactly the
master gain times that oscillator's raw waveform value at the note's
phase. -/
theorem c1_normalized_output :
    (∀ (sinOf : ℚ → ℚ) (o1 o2 o3 : Oscilator) (sr fgain : ℚ)
       (slots : List (TrackElement × ℚ × ℚ)) (channels : ℕ),
       (∀ x, |sinOf x| ≤ 1) → 0 ≤ o1.gain → 0 ≤ o2.gain → 0 ≤ o3.gain →
       (∀ s ∈ slots, 0 ≤ s.1.amplitude ∧ 0 ≤ s.2.2 ∧ s.2.2 ≤ 1) →
       0 ≤ fgain → 1 < (frameStep sinOf o1 o2 o3 sr slots).1 →
       ∀ sample ∈ frameWrite channels
         (frameSample sinOf o1 o2 o3 sr fgain slots),
         |sample| ≤ fgain) ∧
    (∀ (sinOf : ℚ → ℚ) (o2 o3 : Oscilator) (w : Waveform)
       (sr fgain freq phase : ℚ) (e : TrackElement)
       (pre post : List (TrackElement × ℚ × ℚ)),
       (∀ s ∈ pre, s.1.amplitude = 0) → (∀ s ∈ post, s.1.amplitude = 0) →
       e.amplitude = 1 → o2.active = false → o3.active = false →
       frameSample sinOf ⟨w, true, 1⟩ o2 o3 sr fgain
           (pre ++ (e, freq, phase) :: post) =
         fgain * rawWave sinOf w phase) := by
  constructor
  · intro sinOf o1 o2 o3 sr fgain slots channels hsin hg1 hg2 hg3 hslots
      hfg hsum sample hsample
    have hb := frameStep_bound sinOf o1 o2 o3 sr hsin hg1 hg2 hg3 slots
      hslots
    have hspos : (0 : ℚ) < (frameStep sinOf o1 o2 o3 sr slots).1 := by
      linarith
    have hmax : max (1 : ℚ) (frameStep sinOf o1 o2 o3 sr slots).1 =
        (frameStep sinOf o1 o2 o3 sr slots).1 := max_eq_right (by linarith)
    have heq : frameSample sinOf o1 o2 o3 sr fgain slots =
        fgain * ((frameStep sinOf o1 o2 o3 sr slots).2.1 *
          (1 / max 1 (frameStep sinOf o1 o2 o3 sr slots).1)) := rfl
    rw [List.eq_of_mem_replicate hsample, heq, hmax, abs_mul, abs_mul,
      abs_of_nonneg hfg,
      abs_of_nonneg (le_of_lt (one_div_pos.mpr hspos))]
    have hcancel : (frameStep sinOf o1 o2 o3 sr slots).1 *
        (1 / (frameStep sinOf o1 o2 o3 sr slots).1) = 1 :=
      mul_one_div_cancel (ne_of_gt hspos)
    have hw : |(frameStep sinOf o1 o2 o3 sr slots).2.1| *
        (1 / (frameStep sinOf o1 o2 o3 sr slots).1) ≤ 1 := by
      nlinarith [hb.2, le_of_lt (one_div_pos.mpr hspos)]
    nlinarith [hw, abs_nonneg (frameStep sinOf o1 o2 o3 sr slots).2.1,
      le_of_lt (one_div_pos.mpr hspos)]
  · intro sinOf o2 o3 w sr fgain freq phase e pre post hpre hpost hmid
      ho2 ho3
    induction pre with
    | nil =>
        have hpz := frameStep_all_zero sinOf ⟨w, true, 1⟩ o2 o3 sr post
          hpost
        have hz1 : ¬(e.amplitude = 0) := by
          rw [hmid]
          norm_num
        simp [frameSample, frameStep, hz1, hpz, slotContrib, oscContrib,
          ho2, ho3, Oscilator.tick, hmid]
    | cons z pre ih =>
        obtain ⟨ez, fz, pz⟩ := z
        have hz0 : ez.amplitude = 0 :=
          hpre (ez, fz, pz) (List.mem_cons_self _ _)
        have ihp := ih (fun s hs => hpre s (List.mem_cons_of_mem _ hs))
        rw [List.cons_append, frameSample_cons_zero sinOf ⟨w, true, 1⟩ o2
          o3 sr fgain ez fz pz (pre ++ (e, freq, phase) :: post) hz0, ihp]

/-- Witness for C1: two full-amplitude slots driving three unity-gain saw
oscillators at master gain 1/2, and a single note through one saw
oscillator at phase 1/4. -/
theorem c1_normalized_output_witness :
    (∀ sample ∈ frameWrite 2 (frameSample (fun _ => 0)
        ⟨.Saw, true, 1⟩ ⟨.Saw, true, 1⟩ ⟨.Saw, true, 1⟩ 48000 (1/2)
        [(⟨.Sustain, 1, 0, 1⟩, 440, 0), (⟨.Sustain, 1, 0, 1⟩, 440, 0)]),
      |sample| ≤ 1/2) ∧
    frameSample (fun _ => 0) ⟨.Saw, true, 1⟩ ⟨.Sin, false, 1⟩
        ⟨.Sin, false, 1⟩ 48000 (1/2) [(⟨.Sustain, 1, 0, 1⟩, 440, 1/4)] =
      (1/2) * rawWave (fun _ => 0) .Saw (1/4) := by
  constructor
  · exact c1_normalized_output.1 (fun _ => 0) ⟨.Saw, true, 1⟩
      ⟨.Saw, true, 1⟩ ⟨.Saw, true, 1⟩ 48000 (1/2)
      [(⟨.Sustain, 1, 0, 1⟩, 440, 0), (⟨.Sustain, 1, 0, 1⟩, 440, 0)] 2
      (fun x => by norm_num) (by norm_num) (by norm_num) (by norm_num)
      (by
        intro s hs
        fin_cases hs <;> norm_num)
      (by norm_num)
      (by norm_num [frameStep, slotContrib, oscContrib])
  · exact c1_normalized_output.2 (fun _ => 0) ⟨.Sin, false, 1⟩
      ⟨.Sin, false, 1⟩ .Saw 48000 (1/2) 440 (1/4) ⟨.Sustain, 1, 0, 1⟩
      [] []
      (by
        intro s hs
        cases hs)
      (by
        intro s hs
        cases hs)
      rfl rfl rfl

end VirtSynth
